import Mathlib

/-!
Shallow embedding of the MathScribe canvas editor core
(src/src/screens/home/index.tsx) and proofs about its history manager,
shape geometry, submission/result placement and text annotation layer.

Snapshots in the source are canvas data URLs; the embedding is parametric
in the snapshot type R and treats a snapshot as the raster value itself
(toDataURL / drawImage round-trips are lossless PNG encodes).  The
asynchronous image decodes of undo/redo/preview are modelled sequentially
here (each decode completes before the next event); the out-of-order
decode hazard is modelled separately by the decode-event machine below.
-/

namespace MathScribe

def MAX_STACK_SIZE : Nat := 20

/-- The history-relevant component state: the committed raster and the two
snapshot stacks, `undoStack` and `redoStack` (oldest first, newest last),
as held by the Home component. -/
structure HomeState (R : Type) where
  raster : R
  undoStack : List R
  redoStack : List R

/-- `saveState`: push the current raster snapshot onto `undoStack`
(`[...prev, dataURL]`), dropping the oldest entry (`newStack.shift()`)
when the stack would exceed `MAX_STACK_SIZE`, and clear `redoStack`. -/
def saveState {R : Type} (s : HomeState R) : HomeState R :=
  let newStack := s.undoStack ++ [s.raster]
  { s with
      undoStack := if newStack.length > MAX_STACK_SIZE then newStack.tail else newStack
      redoStack := [] }

/-- `undo`: no-op on an empty `undoStack`; otherwise pop the most recent
snapshot, push the current raster onto `redoStack`, and restore the popped
snapshot onto the canvas (the `img.onload` draw). -/
def undo {R : Type} (s : HomeState R) : HomeState R :=
  match s.undoStack.getLast? with
  | Option.none => s
  | Option.some lastState =>
      { raster := lastState
        undoStack := s.undoStack.dropLast
        redoStack := s.redoStack ++ [s.raster] }

/-- `redo`: symmetric inverse of `undo`. -/
def redo {R : Type} (s : HomeState R) : HomeState R :=
  match s.redoStack.getLast? with
  | Option.none => s
  | Option.some lastState =>
      { raster := lastState
        undoStack := s.undoStack ++ [s.raster]
        redoStack := s.redoStack.dropLast }

/-- One user-initiated mutating drawing step: `saveState()` is called and
then the raster is mutated.  This is the common shape of `startDrawing`
(freehand stroke: record, then ink the path) and of `stopDrawing`'s shape
commit (record, then `drawFinalShape`); a shape gesture is two such steps
(pointer-down record + preview mutation, pointer-up record + commit). -/
def drawingOp {R : Type} (f : R → R) (s : HomeState R) : HomeState R :=
  let s1 := saveState s
  { s1 with raster := f s1.raster }

/-- Component mount / reset: blank raster, both stacks empty. -/
def initialState {R : Type} (blank : R) : HomeState R :=
  { raster := blank, undoStack := [], redoStack := [] }

/-- Run a sequence of mutating drawing steps. -/
def runOps {R : Type} (ops : List (R → R)) (s : HomeState R) : HomeState R :=
  ops.foldl (fun st f => drawingOp f st) s

/-- Iterated `undo`. -/
def undoN {R : Type} : Nat → HomeState R → HomeState R
  | 0, s => s
  | n + 1, s => undoN n (undo s)

/-- Iterated `redo`. -/
def redoN {R : Type} : Nat → HomeState R → HomeState R
  | 0, s => s
  | n + 1, s => redoN n (redo s)

/-- The raster value after applying a list of mutations in order. -/
def appOps {R : Type} : List (R → R) → R → R
  | [], r => r
  | f :: fs, r => appOps fs (f r)

/-- The snapshots recorded by a run of mutating steps, oldest first:
the pre-state of each step. -/
def histOps {R : Type} : List (R → R) → R → List R
  | [], _ => []
  | f :: fs, r => r :: histOps fs (f r)

lemma length_histOps {R : Type} (ops : List (R → R)) (r : R) :
    (histOps ops r).length = ops.length := by
  induction ops generalizing r with
  | nil => rfl
  | cons f fs ih => simp [histOps, ih]

lemma saveState_of_lt {R : Type} (s : HomeState R)
    (h : s.undoStack.length < MAX_STACK_SIZE) :
    saveState s =
      { raster := s.raster, undoStack := s.undoStack ++ [s.raster], redoStack := [] } := by
  unfold saveState
  have hle : ¬ ((s.undoStack ++ [s.raster]).length > MAX_STACK_SIZE) := by
    simp only [List.length_append, List.length_cons, List.length_nil]
    omega
  simp [hle]
  intro h2
  exact absurd h2 (by omega)

lemma runOps_cons {R : Type} (f : R → R) (fs : List (R → R)) (s : HomeState R) :
    runOps (f :: fs) s = runOps fs (drawingOp f s) := rfl

lemma runOps_spec {R : Type} :
    ∀ (ops : List (R → R)) (s : HomeState R), ops ≠ [] →
    s.undoStack.length + ops.length ≤ MAX_STACK_SIZE →
    runOps ops s =
      { raster := appOps ops s.raster
        undoStack := s.undoStack ++ histOps ops s.raster
        redoStack := [] } := by
  intro ops
  induction ops with
  | nil => intro s hne _; exact absurd rfl hne
  | cons f fs ih =>
    intro s _ hlen
    have hlt : s.undoStack.length < MAX_STACK_SIZE := by
      simp only [List.length_cons] at hlen; omega
    have hdraw : drawingOp f s =
        { raster := f s.raster, undoStack := s.undoStack ++ [s.raster], redoStack := [] } := by
      unfold drawingOp
      rw [saveState_of_lt s hlt]
    rw [runOps_cons, hdraw]
    cases fs with
    | nil =>
      simp [runOps, appOps, histOps]
    | cons g gs =>
      rw [ih _ (by simp) (by simp only [List.length_append, List.length_cons,
        List.length_nil] at hlen ⊢; omega)]
      simp [appOps, histOps]

lemma undo_snoc {R : Type} (r x : R) (us rs : List R) :
    undo { raster := r, undoStack := us ++ [x], redoStack := rs } =
      { raster := x, undoStack := us, redoStack := rs ++ [r] } := by
  unfold undo
  simp

lemma redo_snoc {R : Type} (r x : R) (us rs : List R) :
    redo { raster := r, undoStack := us, redoStack := rs ++ [x] } =
      { raster := x, undoStack := us ++ [r], redoStack := rs } := by
  unfold redo
  simp

lemma undoN_full {R : Type} :
    ∀ (tl : List R) (hd r : R) (rs : List R),
    undoN (tl.length + 1) { raster := r, undoStack := hd :: tl, redoStack := rs } =
      { raster := hd, undoStack := [], redoStack := rs ++ r :: tl.reverse } := by
  intro tl
  induction tl using List.reverseRecOn with
  | nil =>
    intro hd r rs
    show undoN 0 (undo _) = _
    have h := undo_snoc r hd ([] : List R) rs
    simp only [List.nil_append] at h
    simp [undoN, h]
  | append_singleton tl' x ih =>
    intro hd r rs
    have hlen : (tl' ++ [x]).length + 1 = (tl'.length + 1) + 1 := by simp
    rw [hlen]
    show undoN (tl'.length + 1) (undo _) = _
    have hcons : hd :: (tl' ++ [x]) = (hd :: tl') ++ [x] := by simp
    rw [hcons, undo_snoc, ih]
    simp

lemma redoN_full {R : Type} :
    ∀ (tl : List R) (hd r : R) (us : List R),
    redoN (tl.length + 1) { raster := r, undoStack := us, redoStack := hd :: tl } =
      { raster := hd, undoStack := us ++ r :: tl.reverse, redoStack := [] } := by
  intro tl
  induction tl using List.reverseRecOn with
  | nil =>
    intro hd r us
    show redoN 0 (redo _) = _
    have h := redo_snoc r hd us ([] : List R)
    simp only [List.nil_append] at h
    simp [redoN, h]
  | append_singleton tl' x ih =>
    intro hd r us
    have hlen : (tl' ++ [x]).length + 1 = (tl'.length + 1) + 1 := by simp
    rw [hlen]
    show redoN (tl'.length + 1) (redo _) = _
    have hcons : hd :: (tl' ++ [x]) = (hd :: tl') ++ [x] := by simp
    rw [hcons, redo_snoc, ih]
    simp

/-- C1: for every sequence of N mutating drawing steps (N ≤ 20) from the
initial blank raster, N undos restore the initial blank raster exactly,
and N redos then restore the final raster exactly. -/
theorem undo_redo_roundtrip {R : Type} (blank : R) (ops : List (R → R))
    (hlen : ops.length ≤ MAX_STACK_SIZE) :
    (undoN ops.length (runOps ops (initialState blank))).raster = blank ∧
    (redoN ops.length (undoN ops.length (runOps ops (initialState blank)))).raster =
      (runOps ops (initialState blank)).raster := by
  cases ops with
  | nil => exact ⟨rfl, rfl⟩
  | cons f fs =>
    have hrun := runOps_spec (R := R) (f :: fs) (initialState blank) (by simp)
      (by simpa [initialState] using hlen)
    have hhist : histOps (f :: fs) blank = blank :: histOps fs (f blank) := rfl
    have hlenfs : (f :: fs).length = (histOps fs (f blank)).length + 1 := by
      simp [length_histOps]
    rw [hrun]
    simp only [initialState] at hrun ⊢
    rw [hhist, hlenfs]
    simp only [List.nil_append]
    rw [undoN_full (histOps fs (f blank)) blank (appOps (f :: fs) blank) []]
    constructor
    · rfl
    · have hrevlen : (histOps fs (f blank)).length = (histOps fs (f blank)).reverse.length := by
        simp
      rw [hrevlen]
      simp only [List.nil_append]
      rw [redoN_full (histOps fs (f blank)).reverse (appOps (f :: fs) blank) blank []]

/-- Witness for C1 at a concrete run of two mutations over Nat rasters. -/
theorem undo_redo_roundtrip_witness :
    (undoN 2 (runOps [fun _ => 1, fun _ => 2] (initialState (0 : Nat)))).raster = 0 ∧
    (redoN 2 (undoN 2 (runOps [fun _ => 1, fun _ => 2] (initialState (0 : Nat))))).raster =
      (runOps [fun _ => 1, fun _ => 2] (initialState (0 : Nat))).raster :=
  undo_redo_roundtrip (0 : Nat) [fun _ => 1, fun _ => 2] (by decide)

/-- States of the history machine reachable from mount by user events:
mutating drawing steps, undo, redo, and the reset action (which restores
the initial state: blank raster, both stacks cleared). -/
inductive Reachable {R : Type} (blank : R) : HomeState R → Prop
  | init : Reachable blank (initialState blank)
  | draw (f : R → R) {s : HomeState R} :
      Reachable blank s → Reachable blank (drawingOp f s)
  | undo_step {s : HomeState R} :
      Reachable blank s → Reachable blank (undo s)
  | redo_step {s : HomeState R} :
      Reachable blank s → Reachable blank (redo s)
  | reset_step {s : HomeState R} :
      Reachable blank s → Reachable blank (initialState blank)

lemma reachable_stack_sum {R : Type} {blank : R} {s : HomeState R}
    (h : Reachable blank s) :
    s.undoStack.length + s.redoStack.length ≤ MAX_STACK_SIZE := by
  induction h with
  | init => simp [initialState, MAX_STACK_SIZE]
  | draw f h ih =>
    rename_i s'
    show (drawingOp f s').undoStack.length + (drawingOp f s').redoStack.length ≤ _
    unfold drawingOp saveState
    by_cases hc : (s'.undoStack ++ [s'.raster]).length > MAX_STACK_SIZE
    · simp only [hc, if_true]
      simp only [List.length_tail, List.length_append, List.length_cons, List.length_nil]
      omega
    · simp only [hc, if_false]
      simp only [List.length_append, List.length_cons, List.length_nil] at hc ⊢
      omega
  | undo_step h ih =>
    rename_i s'
    show (undo s').undoStack.length + (undo s').redoStack.length ≤ _
    unfold undo
    cases hu : s'.undoStack.getLast? with
    | none => simpa using ih
    | some lastState =>
      have hne : s'.undoStack ≠ [] := by
        intro hnil; rw [hnil] at hu; simp at hu
      simp only [List.length_dropLast, List.length_append, List.length_cons, List.length_nil]
      have : 1 ≤ s'.undoStack.length := List.length_pos.mpr hne
      omega
  | redo_step h ih =>
    rename_i s'
    show (redo s').undoStack.length + (redo s').redoStack.length ≤ _
    unfold redo
    cases hu : s'.redoStack.getLast? with
    | none => simpa using ih
    | some lastState =>
      have hne : s'.redoStack ≠ [] := by
        intro hnil; rw [hnil] at hu; simp at hu
      simp only [List.length_dropLast, List.length_append, List.length_cons, List.length_nil]
      have : 1 ≤ s'.redoStack.length := List.length_pos.mpr hne
      omega
  | reset_step h ih => simp [initialState, MAX_STACK_SIZE]

/-- C2: in every reachable state the `undoStack` holds at most 20
snapshots, and a `saveState` on a full stack evicts exactly the oldest
entry while keeping the 20 most recent (the new snapshot included). -/
theorem undoStack_bounded {R : Type} (blank : R) (s : HomeState R)
    (h : Reachable blank s) :
    s.undoStack.length ≤ MAX_STACK_SIZE ∧
    (s.undoStack.length = MAX_STACK_SIZE →
      (saveState s).undoStack = s.undoStack.tail ++ [s.raster] ∧
      (saveState s).undoStack.length = MAX_STACK_SIZE) := by
  have hsum := reachable_stack_sum h
  refine ⟨by omega, ?_⟩
  intro hfull
  have hgt : (s.undoStack ++ [s.raster]).length > MAX_STACK_SIZE := by
    simp only [List.length_append, List.length_cons, List.length_nil]
    omega
  have hstack : (saveState s).undoStack = (s.undoStack ++ [s.raster]).tail := by
    unfold saveState
    simp [hgt]
    intro h2
    exact absurd h2 (by omega)
  have hne : s.undoStack ≠ [] := by
    intro hnil
    rw [hnil] at hfull
    simp [MAX_STACK_SIZE] at hfull
  have htail : (s.undoStack ++ [s.raster]).tail = s.undoStack.tail ++ [s.raster] := by
    obtain ⟨a, as, hcons⟩ := List.exists_cons_of_ne_nil hne
    rw [hcons]
    simp
  refine ⟨by rw [hstack, htail], ?_⟩
  rw [hstack]
  simp only [List.length_tail, List.length_append, List.length_cons, List.length_nil]
  omega

/-- Witness for C2 at the reachable mount state. -/
theorem undoStack_bounded_witness :
    (initialState (0 : Nat)).undoStack.length ≤ MAX_STACK_SIZE ∧
    ((initialState (0 : Nat)).undoStack.length = MAX_STACK_SIZE →
      (saveState (initialState (0 : Nat))).undoStack =
        (initialState (0 : Nat)).undoStack.tail ++ [(initialState (0 : Nat)).raster] ∧
      (saveState (initialState (0 : Nat))).undoStack.length = MAX_STACK_SIZE) :=
  undoStack_bounded (0 : Nat) (initialState 0) Reachable.init

/-- C3: every user-initiated mutating drawing step (record-then-mutate,
as performed at stroke start, shape gesture start, and shape commit)
leaves the `redoStack` empty; so does the bare `saveState` record. -/
theorem mutation_clears_redoStack {R : Type} (f : R → R) (s : HomeState R) :
    (drawingOp f s).redoStack = [] ∧ (saveState s).redoStack = [] :=
  ⟨rfl, rfl⟩

/-! ## Raster surface: pixels, bounds scan, canvas reset -/

/-- The visible canvas: its dimensions and the alpha channel of its pixel
buffer (`imageData.data[i + 3]` at `i = (y * width + x) * 4`). -/
structure Canvas where
  width : Nat
  height : Nat
  alpha : Nat → Nat → Nat

/-- The tight opaque-pixel bounding box computed in `runRoute`. -/
structure Bounds where
  minX : Nat
  minY : Nat
  maxX : Nat
  maxY : Nat
deriving DecidableEq

/-- The pixel scan of `runRoute`: `minX/minY` start at the canvas
dimensions, `maxX/maxY` at 0; every pixel with alpha > 0 updates all
four, scanning rows (y) outer and columns (x) inner. -/
def scanBounds (c : Canvas) : Bounds :=
  (List.range c.height).foldl
    (fun acc y =>
      (List.range c.width).foldl
        (fun acc2 x =>
          if 0 < c.alpha x y then
            { minX := min acc2.minX x, minY := min acc2.minY y
              maxX := max acc2.maxX x, maxY := max acc2.maxY y }
          else acc2)
        acc)
    { minX := c.width, minY := c.height, maxX := 0, maxY := 0 }

/-- `centerX/centerY` of `runRoute`: the midpoint of the opaque bounds
(JavaScript float division modelled exactly in ℚ). -/
def centerOf (c : Canvas) : ℚ × ℚ :=
  (((scanBounds c).minX + (scanBounds c).maxX : ℚ) / 2,
   ((scanBounds c).minY + (scanBounds c).maxY : ℚ) / 2)

/-! ## Submission and result placement (`runRoute`) -/

/-- One record of the solver response array: `{expr, result, assign?}`
with `assign` optional (`data.assign ?? true`). -/
structure Entry where
  expr : String
  result : String
  assign : Option Bool
deriving DecidableEq

/-- The observable outcome of the solver call: the request threw (network
failure, caught by the surrounding try/catch), the payload's `data` field
is not an array, or it is an array of entries. -/
inductive SolverResp
  | ok (data : List Entry)
  | notArray
  | failure

/-- A rendered result label (`latexExpressions` entry). -/
structure LatexExpr where
  id : Nat
  text : String
  position : ℚ × ℚ
deriving DecidableEq

/-- The state `runRoute` reads and writes: the committed canvas, the
variable dictionary `dictOfVars`, and the result labels. -/
structure RunState where
  canvas : Canvas
  dictOfVars : String → Option String
  latexExpressions : List LatexExpr

/-- The rendered label markup of one response entry. -/
def labelText (e : Entry) : String :=
  "\\(\\LARGE\x7b\\text\x7b" ++ e.expr ++ "\x7d = \\text\x7b" ++ e.result ++ "\x7d\x7d\\)"

/-- The `resp.data.forEach` dictionary merge: each entry writes
`dictOfVars[data.expr] = data.result`, unconditionally. -/
def mergeVars (entries : List Entry) (d : String → Option String) :
    String → Option String :=
  entries.foldl
    (fun acc e => fun k => if k = e.expr then Option.some e.result else acc k) d

/-- The label pushed for the entry at position `i` of the response:
id `prev.length + 1`, position `center + (i * 30, i * 30)`. -/
def mkLabel (n : Nat) (cX cY : ℚ) (i : Nat) (e : Entry) : LatexExpr :=
  { id := n + 1, text := labelText e, position := (cX + 30 * i, cY + 30 * i) }

/-- The `resp.data.forEach((data, index) => ...)` placement loop: entries
with `data.assign ?? true` append one label, others append nothing; the
index keeps counting over the full array. -/
def placeLabels (i : Nat) (entries : List Entry) (cX cY : ℚ)
    (acc : List LatexExpr) : List LatexExpr :=
  match entries with
  | [] => acc
  | e :: rest =>
      placeLabels (i + 1) rest cX cY
        (if e.assign.getD true then acc ++ [mkLabel acc.length cX cY i e] else acc)

/-- `runRoute` after the solver call resolves: on an array payload, merge
every entry into `dictOfVars`, scan the still-committed canvas for its
opaque bounds, and place one label per `shouldAssign` entry; on a
non-array payload or a thrown error, log only (no state change). -/
def runRoute (s : RunState) (resp : SolverResp) : RunState :=
  match resp with
  | SolverResp.failure => s
  | SolverResp.notArray => s
  | SolverResp.ok data =>
      let c := centerOf s.canvas
      { s with
          dictOfVars := mergeVars data s.dictOfVars
          latexExpressions := placeLabels 0 data c.1 c.2 s.latexExpressions }

lemma placeLabels_spec :
    ∀ (entries : List Entry) (i : Nat) (cX cY : ℚ) (acc : List LatexExpr),
    (placeLabels i entries cX cY acc).map (fun l => (l.text, l.position)) =
      acc.map (fun l => (l.text, l.position)) ++
      ((List.enumFrom i entries).filter (fun p => p.2.assign.getD true)).map
        (fun p => (labelText p.2, (cX + 30 * p.1, cY + 30 * p.1))) := by
  intro entries
  induction entries with
  | nil => intro i cX cY acc; simp [placeLabels]
  | cons e rest ih =>
    intro i cX cY acc
    rw [placeLabels, ih]
    by_cases h : e.assign.getD true = true
    · simp [h, List.enumFrom, List.filter_cons, mkLabel]
    · simp [h, List.enumFrom, List.filter_cons]

lemma mergeVars_lookup :
    ∀ (entries : List Entry) (d : String → Option String) (k : String),
    mergeVars entries d k =
      match entries.reverse.find? (fun e => e.expr == k) with
      | Option.some e => Option.some e.result
      | Option.none => d k := by
  intro entries
  induction entries with
  | nil => intro d k; rfl
  | cons e rest ih =>
    intro d k
    show mergeVars rest _ k = _
    rw [ih]
    cases hf : rest.reverse.find? (fun e2 => e2.expr == k) with
    | some e2 =>
      simp only [List.reverse_cons, List.find?_append, hf]
      rfl
    | none =>
      simp only [List.reverse_cons, List.find?_append, hf]
      have hnone : (Option.none : Option Entry).or
          (List.find? (fun e2 => e2.expr == k) [e]) =
          List.find? (fun e2 => e2.expr == k) [e] := rfl
      rw [hnone]
      by_cases hk : k = e.expr
      · subst hk
        simp [List.find?]
      · have hbeq : (e.expr == k) = false :=
          beq_eq_false_iff_ne.mpr (fun hcontra => hk hcontra.symm)
        simp [List.find?, hbeq, hk]

lemma scan_row_opaque (c : Canvas) (hpos : ∀ x y, 0 < c.alpha x y) (y : Nat) :
    ∀ (n : Nat) (acc : Bounds),
    (List.range (n + 1)).foldl
      (fun acc2 x =>
        if 0 < c.alpha x y then
          { minX := min acc2.minX x, minY := min acc2.minY y
            maxX := max acc2.maxX x, maxY := max acc2.maxY y }
        else acc2)
      acc =
      { minX := min acc.minX 0, minY := min acc.minY y
        maxX := max acc.maxX n, maxY := max acc.maxY y } := by
  intro n
  induction n with
  | zero =>
    intro acc
    have h1 : List.range 1 = [0] := rfl
    rw [h1]
    simp [hpos 0 y]
  | succ m ih =>
    intro acc
    rw [List.range_succ, List.foldl_append, ih]
    simp only [List.foldl_cons, List.foldl_nil, hpos (m + 1) y, if_pos]
    simp only [Bounds.mk.injEq]
    refine ⟨?_, ?_, ?_, ?_⟩ <;> omega

lemma scan_outer_opaque (c : Canvas) (hpos : ∀ x y, 0 < c.alpha x y)
    (k : Nat) (hw : c.width = k + 1) :
    ∀ (m : Nat) (acc : Bounds),
    (List.range (m + 1)).foldl
      (fun acc y =>
        (List.range c.width).foldl
          (fun acc2 x =>
            if 0 < c.alpha x y then
              { minX := min acc2.minX x, minY := min acc2.minY y
                maxX := max acc2.maxX x, maxY := max acc2.maxY y }
            else acc2)
          acc)
      acc =
      { minX := min acc.minX 0, minY := min acc.minY 0
        maxX := max acc.maxX k, maxY := max acc.maxY m } := by
  intro m
  induction m with
  | zero =>
    intro acc
    have h1 : List.range 1 = [0] := rfl
    rw [h1]
    simp only [List.foldl_cons, List.foldl_nil]
    rw [hw, scan_row_opaque c hpos 0 k acc]
  | succ m ih =>
    intro acc
    rw [List.range_succ, List.foldl_append, ih]
    simp only [List.foldl_cons, List.foldl_nil]
    rw [hw, scan_row_opaque c hpos (m + 1) k]
    simp only [Bounds.mk.injEq]
    refine ⟨?_, ?_, ?_, ?_⟩ <;> omega

/-- On a fully opaque canvas the bounds scan returns the full-canvas
box. -/
lemma scanBounds_opaque (c : Canvas) (hpos : ∀ x y, 0 < c.alpha x y)
    (hw : 1 ≤ c.width) (hh : 1 ≤ c.height) :
    scanBounds c = { minX := 0, minY := 0, maxX := c.width - 1, maxY := c.height - 1 } := by
  obtain ⟨k, hk⟩ : ∃ k, c.width = k + 1 := ⟨c.width - 1, by omega⟩
  obtain ⟨m, hm⟩ : ∃ m, c.height = m + 1 := ⟨c.height - 1, by omega⟩
  unfold scanBounds
  rw [hm, scan_outer_opaque c hpos k hk m]
  simp only [Bounds.mk.injEq]
  refine ⟨?_, ?_, ?_, ?_⟩ <;> omega

/-- The concrete canvas of the claim's example: fully opaque, 101 by 51,
so the opaque bounds are `(0, 0, 100, 50)`. -/
def exampleCanvas : Canvas :=
  { width := 101
    height := 51
    alpha := fun _ _ => 255 }

/-- The concrete response of the claim's example. -/
def exampleEntries : List Entry :=
  [{ expr := "x", result := "2", assign := Option.some true },
   { expr := "y", result := "3", assign := Option.some false },
   { expr := "z", result := "5", assign := Option.some true }]

/-- The pre-submission state of the claim's example. -/
def exampleRunState : RunState :=
  { canvas := exampleCanvas
    dictOfVars := fun _ => Option.none
    latexExpressions := [] }

/-- C4: on an array response, exactly the entries whose `assign` flag
defaults to true produce a label, in response order, with text
`expr = result` and position `center + (index * 30, index * 30)` where
`index` counts positions in the full response array and `center` is the
midpoint of the opaque-pixel bounds; in particular, for opaque bounds
`(0,0,100,50)` and the three-entry example response, exactly two labels
are created, at `(50, 25)` and `(110, 85)`. -/
theorem runRoute_label_placement (s : RunState) (entries : List Entry) :
    ((runRoute s (SolverResp.ok entries)).latexExpressions.map
        (fun l => (l.text, l.position)) =
      s.latexExpressions.map (fun l => (l.text, l.position)) ++
      ((List.enumFrom 0 entries).filter (fun p => p.2.assign.getD true)).map
        (fun p => (labelText p.2,
          ((centerOf s.canvas).1 + 30 * p.1, (centerOf s.canvas).2 + 30 * p.1)))) ∧
    (runRoute exampleRunState (SolverResp.ok exampleEntries)).latexExpressions.map
        (fun l => l.position) = [(50, 25), (110, 85)] := by
  constructor
  · exact placeLabels_spec entries 0 _ _ s.latexExpressions
  · have hscan : scanBounds exampleCanvas =
        { minX := 0, minY := 0, maxX := 100, maxY := 50 } := by
      have h := scanBounds_opaque exampleCanvas
        (by intro x y; norm_num [exampleCanvas])
        (by norm_num [exampleCanvas]) (by norm_num [exampleCanvas])
      simpa [exampleCanvas] using h
    have hcenter : centerOf exampleCanvas = (50, 25) := by
      rw [centerOf, hscan]
      norm_num
    show (placeLabels 0 exampleEntries (centerOf exampleCanvas).1
        (centerOf exampleCanvas).2 []).map (fun l => l.position) = _
    rw [hcenter]
    simp [placeLabels, exampleEntries, mkLabel]
    norm_num

/-- C5: on an array response, every `{expr: result}` pair is merged into
`dictOfVars` regardless of its `assign` flag (the latest entry for a key
wins), and keys not named by any entry keep their previous binding. -/
theorem runRoute_merges_all_bindings (s : RunState) (entries : List Entry)
    (k : String) :
    (runRoute s (SolverResp.ok entries)).dictOfVars k =
      match entries.reverse.find? (fun e => e.expr == k) with
      | Option.some e => Option.some e.result
      | Option.none => s.dictOfVars k :=
  mergeVars_lookup entries s.dictOfVars k

/-- C6: a failed solver call or a payload whose `data` is not an array
leaves the whole state untouched: no labels added, `dictOfVars`
unchanged, canvas pixels unchanged. -/
theorem runRoute_failure_noop (s : RunState) :
    runRoute s SolverResp.failure = s ∧ runRoute s SolverResp.notArray = s :=
  ⟨rfl, rfl⟩

/-! ## Tool state and shape geometry -/

/-- The tool enum. -/
inductive Tool
  | draw
  | erase
  | text
  | rectangle
  | square
  | circle
  | triangle
deriving DecidableEq

/-- A point in canvas pixel space (JavaScript numbers modelled in ℚ). -/
structure Point where
  x : ℚ
  y : ℚ
deriving DecidableEq

/-- The path command issued by `drawShape` onto the 2D context: an
axis-aligned `ctx.rect`, a full-circle `ctx.arc` whose radius is the
square root of the stored `rSq = width * width + height * height`, or the
closed triangle path, or nothing for non-shape tools. -/
inductive ShapeCmd
  | rect (x y w h : ℚ)
  | arc (cx cy rSq : ℚ)
  | tri (a b c : Point)
  | noOp
deriving DecidableEq

/-- `drawShape`: the path geometry for each tool, computed from
`width = end.x - start.x` and `height = end.y - start.y`. -/
def drawShape (tool : Tool) (start endP : Point) : ShapeCmd :=
  let width := endP.x - start.x
  let height := endP.y - start.y
  match tool with
  | Tool.rectangle => ShapeCmd.rect start.x start.y width height
  | Tool.square =>
      let size := min |width| |height|
      ShapeCmd.rect start.x start.y
        (if width < 0 then -size else size)
        (if height < 0 then -size else size)
  | Tool.circle => ShapeCmd.arc start.x start.y (width * width + height * height)
  | Tool.triangle =>
      ShapeCmd.tri start endP { x := start.x * 2 - endP.x, y := endP.y }
  | _ => ShapeCmd.noOp

/-- C7: the Square tool stamps an axis-aligned box anchored at `start`
whose sides both have magnitude `min |end.x - start.x| |end.y - start.y|`
and carry the sign of the corresponding raw delta; in particular for
`start = (0,0)` and `end = (40,-10)` the box is `rect 0 0 10 (-10)`. -/
theorem drawShape_square_spec (start endP : Point) :
    (∃ w h : ℚ,
      drawShape Tool.square start endP = ShapeCmd.rect start.x start.y w h ∧
      |w| = min |endP.x - start.x| |endP.y - start.y| ∧
      |h| = min |endP.x - start.x| |endP.y - start.y| ∧
      0 ≤ w * (endP.x - start.x) ∧ 0 ≤ h * (endP.y - start.y)) ∧
    drawShape Tool.square { x := 0, y := 0 } { x := 40, y := -10 } =
      ShapeCmd.rect 0 0 10 (-10) := by
  constructor
  · set dx := endP.x - start.x with hdx
    set dy := endP.y - start.y with hdy
    set m := min |dx| |dy| with hm
    have hm0 : 0 ≤ m := le_min (abs_nonneg dx) (abs_nonneg dy)
    refine ⟨if dx < 0 then -m else m, if dy < 0 then -m else m, rfl, ?_, ?_, ?_, ?_⟩
    · by_cases h : dx < 0 <;> simp [h, abs_of_nonneg hm0]
    · by_cases h : dy < 0 <;> simp [h, abs_of_nonneg hm0]
    · by_cases h : dx < 0
      · simp only [h, if_true]
        have : 0 ≤ m * (-dx) := mul_nonneg hm0 (by linarith)
        linarith [this]
      · simp only [h, if_false]
        exact mul_nonneg hm0 (not_lt.mp h)
    · by_cases h : dy < 0
      · simp only [h, if_true]
        have : 0 ≤ m * (-dy) := mul_nonneg hm0 (by linarith)
        linarith [this]
      · simp only [h, if_false]
        exact mul_nonneg hm0 (not_lt.mp h)
  · show ShapeCmd.rect 0 0 _ _ = ShapeCmd.rect 0 0 10 (-10)
    norm_num [drawShape]

/-! ## Asynchronous image decode (shape preview / undo / redo restores)

Every preview frame and every undo/redo restore creates a fresh `Image`,
sets its `src`, and registers an `onload` callback that paints the decoded
snapshot; the handlers in the source paint unconditionally, with no
request-generation check.  The machine below models the issue/complete
event structure: requests get monotonically increasing generation numbers
and a completion may arrive for any still-pending request. -/

/-- State of the decode machinery: which request's paint is currently
visible (by generation number), how many requests have been issued, and
which generations still have an unfired `onload`. -/
structure DecodeState where
  visible : Option Nat
  issued : Nat
  live : List Nat
deriving DecidableEq

/-- An event observable at the decode layer. -/
inductive DecodeEvent
  | request
  | complete (g : Nat)
deriving DecidableEq

/-- One event step.  A `request` allocates the next generation; a
`complete g` for a pending generation runs the source's `onload` handler,
which paints its snapshot unconditionally (no staleness check in
`draw`/`undo`/`redo`). -/
def decodeStep (s : DecodeState) : DecodeEvent → DecodeState
  | DecodeEvent.request =>
      { s with issued := s.issued + 1, live := s.live ++ [s.issued] }
  | DecodeEvent.complete g =>
      if g ∈ s.live then
        { s with visible := Option.some g, live := s.live.erase g }
      else s

/-- Run a list of decode events from the idle state. -/
def runDecode (evs : List DecodeEvent) : DecodeState :=
  evs.foldl decodeStep { visible := Option.none, issued := 0, live := [] }

/-- C8 fails on the code: after two back-to-back restore/preview requests
(generations 0 and 1) whose decodes complete out of order, the stale
generation-0 paint lands last and stays visible, although generation 1 is
the most recently issued request.  The source's `onload` handlers have no
generation guard, so the stale decode is not discarded. -/
theorem stale_decode_overwrites :
    (runDecode [DecodeEvent.request, DecodeEvent.request,
      DecodeEvent.complete 1, DecodeEvent.complete 0]).visible = Option.some 0 ∧
    (runDecode [DecodeEvent.request, DecodeEvent.request,
      DecodeEvent.complete 1, DecodeEvent.complete 0]).issued = 2 := by
  constructor <;> rfl

/-! ## Painting-only raster evolution (C9) -/

/-- Source-over alpha compositing in 0..255 integer alpha: painting onto
a fully opaque pixel keeps it fully opaque. -/
def compositeSourceOver (dst src : Nat) : Nat :=
  src + dst * (255 - src) / 255

/-- A freehand paint stroke or a shape stamp in `source-over` mode:
composites a source alpha mask over the buffer. -/
def paintStroke (c : Canvas) (mask : Nat → Nat → Nat) : Canvas :=
  { c with alpha := fun x y => compositeSourceOver (c.alpha x y) (mask x y) }

/-- `resetCanvas`: `clearRect` followed by an opaque white `fillRect`
over the whole canvas, so every pixel ends fully opaque. -/
def resetCanvas (c : Canvas) : Canvas :=
  { c with alpha := fun _ _ => 255 }

/-- The mount-time initialization: white `fillRect` over the whole
canvas. -/
def initCanvas (w h : Nat) : Canvas :=
  { width := w, height := h, alpha := fun _ _ => 255 }

/-- Canvas states reachable from mount using only painting operations:
freehand paint strokes, shape stamps (both `source-over` composites of an
alpha mask, masks being bytes), and clears.  No erase strokes. -/
inductive PaintReachable : Canvas → Prop
  | mount (w h : Nat) : PaintReachable (initCanvas w h)
  | stroke {c : Canvas} (mask : Nat → Nat → Nat) (hm : ∀ x y, mask x y ≤ 255) :
      PaintReachable c → PaintReachable (paintStroke c mask)
  | clear {c : Canvas} : PaintReachable c → PaintReachable (resetCanvas c)

lemma compositeSourceOver_opaque (src : Nat) (h : src ≤ 255) :
    compositeSourceOver 255 src = 255 := by
  unfold compositeSourceOver
  have hdiv : 255 * (255 - src) / 255 = 255 - src :=
    Nat.mul_div_cancel_left (255 - src) (by norm_num)
  rw [hdiv]
  omega

lemma paintReachable_opaque {c : Canvas} (h : PaintReachable c) :
    ∀ x y, c.alpha x y = 255 := by
  induction h with
  | mount w h => intro x y; rfl
  | stroke mask hm h ih =>
    intro x y
    show compositeSourceOver _ (mask x y) = 255
    rw [ih x y]
    exact compositeSourceOver_opaque (mask x y) (hm x y)
  | clear h ih => intro x y; rfl

/-- C9: every raster reachable from mount by painting operations only
(paint strokes, shape stamps, clears) is fully opaque, so the submission
scan returns the full-canvas box and the label-placement center is the
canvas center, wherever ink was drawn. -/
theorem painted_canvas_fullbounds (c : Canvas) (h : PaintReachable c) :
    (∀ x y, c.alpha x y = 255) ∧
    (1 ≤ c.width → 1 ≤ c.height →
      scanBounds c = { minX := 0, minY := 0, maxX := c.width - 1, maxY := c.height - 1 } ∧
      centerOf c = (((c.width - 1 : Nat) : ℚ) / 2, ((c.height - 1 : Nat) : ℚ) / 2)) := by
  have hop := paintReachable_opaque h
  refine ⟨hop, ?_⟩
  intro hw hh
  have hscan := scanBounds_opaque c (fun x y => by rw [hop x y]; norm_num) hw hh
  refine ⟨hscan, ?_⟩
  rw [centerOf, hscan]
  norm_num

/-- Witness for C9 at a concrete painted 3-by-2 canvas. -/
theorem painted_canvas_fullbounds_witness :
    (∀ x y, (paintStroke (initCanvas 3 2) (fun _ _ => 100)).alpha x y = 255) ∧
    (1 ≤ (paintStroke (initCanvas 3 2) (fun _ _ => 100)).width →
      1 ≤ (paintStroke (initCanvas 3 2) (fun _ _ => 100)).height →
      scanBounds (paintStroke (initCanvas 3 2) (fun _ _ => 100)) =
        { minX := 0, minY := 0
          maxX := (paintStroke (initCanvas 3 2) (fun _ _ => 100)).width - 1
          maxY := (paintStroke (initCanvas 3 2) (fun _ _ => 100)).height - 1 } ∧
      centerOf (paintStroke (initCanvas 3 2) (fun _ _ => 100)) =
        ((((paintStroke (initCanvas 3 2) (fun _ _ => 100)).width - 1 : Nat) : ℚ) / 2,
         (((paintStroke (initCanvas 3 2) (fun _ _ => 100)).height - 1 : Nat) : ℚ) / 2)) :=
  painted_canvas_fullbounds (paintStroke (initCanvas 3 2) (fun _ _ => 100))
    (PaintReachable.stroke (fun _ _ => 100) (fun _ _ => by norm_num)
      (PaintReachable.mount 3 2))

/-! ## Text annotation layer (C10) -/

/-- A text item of the annotation layer. -/
structure TextItem where
  id : Nat
  position : ℚ × ℚ
  text : String
  fontSize : Nat
deriving DecidableEq

/-- The text-layer component state: the items, the id counter
`nextTextItemId`, and the ambient default font size. -/
structure TextState where
  textItems : List TextItem
  nextTextItemId : Nat
  fontSize : Nat

/-- Mount-time state: no items, counter starts at 1, font size 16. -/
def initialTextState : TextState :=
  { textItems := [], nextTextItemId := 1, fontSize := 16 }

/-- The user events that touch the text layer. -/
inductive TextAction
  | canvasClick (pos : ℚ × ℚ)
  | deleteText (id : Nat)
  | moveText (id : Nat) (pos : ℚ × ℚ)
  | setText (id : Nat) (t : String)
  | resetAll

/-- One text-layer step, from the source handlers: `handleCanvasClick`
with the Text tool appends an item with id `nextTextItemId` and
increments the counter; delete filters by id; drag stop and blur map over
items; the reset effect clears `textItems` but never touches
`nextTextItemId`. -/
def textStep (s : TextState) : TextAction → TextState
  | TextAction.canvasClick pos =>
      { s with
          textItems := s.textItems ++
            [{ id := s.nextTextItemId, position := pos
               text := "Double-click to edit", fontSize := s.fontSize }]
          nextTextItemId := s.nextTextItemId + 1 }
  | TextAction.deleteText i =>
      { s with textItems := s.textItems.filter (fun it => it.id ≠ i) }
  | TextAction.moveText i pos =>
      { s with
          textItems :=
            s.textItems.map (fun it => if it.id = i then { it with position := pos } else it) }
  | TextAction.setText i t =>
      { s with
          textItems :=
            s.textItems.map (fun it => if it.id = i then { it with text := t } else it) }
  | TextAction.resetAll => { s with textItems := [] }

/-- The ids handed out to newly created text items along a run, in
creation order. -/
def createdIds (s : TextState) : List TextAction → List Nat
  | [] => []
  | TextAction.canvasClick pos :: rest =>
      s.nextTextItemId :: createdIds (textStep s (TextAction.canvasClick pos)) rest
  | TextAction.deleteText i :: rest => createdIds (textStep s (TextAction.deleteText i)) rest
  | TextAction.moveText i pos :: rest =>
      createdIds (textStep s (TextAction.moveText i pos)) rest
  | TextAction.setText i t :: rest => createdIds (textStep s (TextAction.setText i t)) rest
  | TextAction.resetAll :: rest => createdIds (textStep s TextAction.resetAll) rest

lemma nextTextItemId_mono (s : TextState) (a : TextAction) :
    s.nextTextItemId ≤ (textStep s a).nextTextItemId := by
  cases a <;> simp [textStep]

lemma createdIds_lower_bound :
    ∀ (acts : List TextAction) (s : TextState) (i : Nat),
    i ∈ createdIds s acts → s.nextTextItemId ≤ i := by
  intro acts
  induction acts with
  | nil => intro s i hi; simp [createdIds] at hi
  | cons a rest ih =>
    intro s i hi
    cases a with
    | canvasClick pos =>
      rw [createdIds] at hi
      rcases List.mem_cons.mp hi with h | h
      · omega
      · have h2 := ih (textStep s (TextAction.canvasClick pos)) i h
        have h3 : (textStep s (TextAction.canvasClick pos)).nextTextItemId =
            s.nextTextItemId + 1 := rfl
        omega
    | deleteText j =>
      rw [createdIds] at hi
      exact le_trans (nextTextItemId_mono s _) (ih _ i hi)
    | moveText j pos =>
      rw [createdIds] at hi
      exact le_trans (nextTextItemId_mono s _) (ih _ i hi)
    | setText j t =>
      rw [createdIds] at hi
      exact le_trans (nextTextItemId_mono s _) (ih _ i hi)
    | resetAll =>
      rw [createdIds] at hi
      exact le_trans (nextTextItemId_mono s _) (ih _ i hi)

lemma createdIds_pairwise :
    ∀ (acts : List TextAction) (s : TextState),
    List.Pairwise (fun i j => i < j) (createdIds s acts) := by
  intro acts
  induction acts with
  | nil => intro s; simp [createdIds]
  | cons a rest ih =>
    intro s
    cases a with
    | canvasClick pos =>
      rw [createdIds]
      refine List.Pairwise.cons ?_ (ih _)
      intro j hj
      have h2 := createdIds_lower_bound rest (textStep s (TextAction.canvasClick pos)) j hj
      have h3 : (textStep s (TextAction.canvasClick pos)).nextTextItemId =
          s.nextTextItemId + 1 := rfl
      omega
    | deleteText j => rw [createdIds]; exact ih _
    | moveText j pos => rw [createdIds]; exact ih _
    | setText j t => rw [createdIds]; exact ih _
    | resetAll => rw [createdIds]; exact ih _

/-- C10: along any run of text-layer events from mount, the ids handed to
newly created text items are strictly increasing in creation order (so an
id, once assigned or deleted, is never reused), the id counter never
decreases at any step, and the global reset leaves the counter alone. -/
theorem textItem_ids_monotone (acts : List TextAction) :
    List.Pairwise (fun i j => i < j) (createdIds initialTextState acts) ∧
    (∀ (s : TextState) (a : TextAction),
      s.nextTextItemId ≤ (textStep s a).nextTextItemId) ∧
    (∀ s : TextState, (textStep s TextAction.resetAll).nextTextItemId = s.nextTextItemId) :=
  ⟨createdIds_pairwise acts initialTextState,
   fun s a => nextTextItemId_mono s a,
   fun _ => rfl⟩

end MathScribe
